import Mathlib

/-!
Shallow embedding of the dynamic-array container implemented in
src/advanced-vector/vector.h (classes RawMemory and Vector).

A vector state is represented by the list of its live element values
together with the capacity of its raw storage block; the live count
size_ of the source always equals the number of live elements, so
size is the length of the list.  Element operations that can throw in
C++ (the element constructor invoked by EmplaceBack / Emplace, copy
construction during relocation, copy assignment in handleAssignment)
are modelled by Except results and by explicit failure-point
parameters; the state component of the result is the state of *this
after the call, whether it returned normally or by exception.
-/

namespace AdvVec

/-- State of a Vector<T>: the list of live element values (slots [0, size))
and the capacity of the owned RawMemory block. -/
structure Vec (α : Type) where
  elems : List α
  cap : Nat
  deriving DecidableEq

variable {α : Type}

/-- Vector::Size — the number of live elements. -/
def Vec.size (v : Vec α) : Nat := v.elems.length

/-- The container invariant 0 ≤ size ≤ capacity (the lower bound is
automatic for Nat). -/
def Vec.inv (v : Vec α) : Prop := v.size ≤ v.cap

instance (v : Vec α) : Decidable v.inv := by
  unfold Vec.inv; infer_instance

/-- The growth rule of EmplaceBack and Emplace:
size_ == 0 ? 1 : size_ * 2. -/
def growCap (n : Nat) : Nat := if n = 0 then 1 else n * 2

/-- Vector() — default construction: empty, zero capacity. -/
def Vec.empty : Vec α := ⟨[], 0⟩

/-- Vector(size_t size) — allocates size slots and value-constructs all of
them (std::uninitialized_value_construct_n). -/
def Vec.ofSize [Inhabited α] (n : Nat) : Vec α := ⟨List.replicate n default, n⟩

/-- Vector(const Vector&) — allocates other.size_ slots and copy-constructs
the live elements in order (std::uninitialized_copy_n). -/
def Vec.copyCtor (other : Vec α) : Vec α := ⟨other.elems, other.size⟩

/-- Vector(const Vector&) with a fallible element copy constructor:
failAt = some i means the copy construction of element i throws.  On a
throw, uninitialized_copy_n destroys what it had constructed and the
allocation is released; no vector object is produced. -/
def Vec.copyCtorE (other : Vec α) (failAt : Option Nat) : Except Unit (Vec α) :=
  match failAt with
  | some i => if i < other.size then .error () else .ok ⟨other.elems, other.size⟩
  | none => .ok ⟨other.elems, other.size⟩

/-- Vector::Swap — swaps data_ (buffer and capacity) and size_ of the two
objects; returns the pair of states after the call. -/
def Vec.swap (a b : Vec α) : Vec α × Vec α := (b, a)

/-- Vector(Vector&&) — the new object starts default-constructed and swaps
with other.  Returns (constructed vector, moved-from other). -/
def Vec.moveCtor (other : Vec α) : Vec α × Vec α :=
  Vec.swap Vec.empty other

/-- Vector::operator=(Vector&&) for distinct objects — Swap(rhs).
Returns (state of *this, state of rhs) after the call. -/
def Vec.moveAssign (lhs rhs : Vec α) : Vec α × Vec α :=
  Vec.swap lhs rhs

/-- Vector::handleAssignment(rhs) with a fallible element copy:
failAt = some i means the i-th element copy (assignment inside std::copy
over the shared prefix, or copy construction inside
std::uninitialized_copy_n over the excess tail) throws.  Returns the
outcome and the state of *this afterwards; note the source only updates
size_ after handleAssignment returns normally, so on a throw the live
count is still the old size. -/
def Vec.handleAssignmentE (lhs rhs : Vec α) (failAt : Option Nat) :
    Except Unit Unit × Vec α :=
  let minSize := min lhs.size rhs.size
  let failsInAssign : Bool := match failAt with
    | some i => decide (i < minSize)
    | none => false
  if failsInAssign then
    -- std::copy assigned elements [0, i) of the prefix, then threw at i:
    -- the prefix is partially overwritten, everything else untouched
    let i := failAt.getD 0
    (.error (), ⟨rhs.elems.take i ++ lhs.elems.drop i, lhs.cap⟩)
  else
    -- std::copy over the full shared prefix succeeded
    let afterCopy := rhs.elems.take minSize ++ lhs.elems.drop minSize
    if rhs.size < lhs.size then
      -- std::destroy_n removes the excess tail of *this (destructors
      -- never throw)
      (.ok (), ⟨afterCopy.take rhs.size, lhs.cap⟩)
    else
      let failsInTail : Bool := match failAt with
        | some i => decide (i < rhs.size)
        | none => false
      if failsInTail then
        -- uninitialized_copy_n threw while copy-constructing the excess
        -- tail of rhs and destroyed what it had constructed
        (.error (), ⟨afterCopy, lhs.cap⟩)
      else
        (.ok (), ⟨afterCopy ++ rhs.elems.drop minSize, lhs.cap⟩)

/-- Vector::operator=(const Vector&) for distinct objects, with a fallible
element copy.  If rhs.size_ exceeds the capacity of *this, a full
temporary copy of rhs is built and swapped in; otherwise the existing
storage is reused through handleAssignment.  On normal return size_ is
set to rhs.size_. -/
def Vec.copyAssignE (lhs rhs : Vec α) (failAt : Option Nat) :
    Except Unit Unit × Vec α :=
  if rhs.size > lhs.cap then
    match Vec.copyCtorE rhs failAt with
    | .error e => (.error e, lhs)
    | .ok rhsCopy => (.ok (), rhsCopy)
  else
    Vec.handleAssignmentE lhs rhs failAt

/-- Vector::operator=(const Vector&) when no element operation throws. -/
def Vec.copyAssign (lhs rhs : Vec α) : Vec α :=
  (Vec.copyAssignE lhs rhs none).2

/-- Vector::Reserve — no-op when new_capacity fits in the current block;
otherwise allocates new storage of exactly new_capacity, relocates the
size_ live elements into it in order, destroys the originals and swaps. -/
def Vec.reserve (v : Vec α) (newCapacity : Nat) : Vec α :=
  if newCapacity ≤ v.cap then v
  else ⟨v.elems, newCapacity⟩

/-- Vector::Resize — growing value-constructs the newly exposed tail after
a Reserve; shrinking destroys the excess tail. -/
def Vec.resize [Inhabited α] (v : Vec α) (newSize : Nat) : Vec α :=
  if newSize > v.size then
    let r := v.reserve newSize
    ⟨r.elems ++ List.replicate (newSize - v.size) default, r.cap⟩
  else
    ⟨v.elems.take newSize, v.cap⟩

/-- Vector::EmplaceBack with a fallible element constructor.  mk models
the construction T(std::forward<Args>(args)...), which may throw;
copyFailAt = some i models the copy relocation of existing elements
throwing while copy-constructing element i (the relocation branch taken
when the element type is relocated by copy; move relocation is chosen
only when it cannot throw).  The new element is constructed first,
directly into its final slot of the new block; on a relocation throw the
already-placed new element is destroyed and the exception is rethrown,
with the members of *this never written on any throwing path. -/
def Vec.emplaceBackE (v : Vec α) (mk : Except Unit α) (copyFailAt : Option Nat) :
    Except Unit Unit × Vec α :=
  if v.size = v.cap then
    match mk with
    | .error e => (.error e, v)
    | .ok x =>
      match copyFailAt with
      | some i =>
        if i < v.size then (.error (), v)
        else (.ok (), ⟨v.elems ++ [x], growCap v.size⟩)
      | none => (.ok (), ⟨v.elems ++ [x], growCap v.size⟩)
  else
    match mk with
    | .error e => (.error e, v)
    | .ok x => (.ok (), ⟨v.elems ++ [x], v.cap⟩)

/-- Vector::EmplaceBack when no element operation throws. -/
def Vec.emplaceBack (v : Vec α) (x : α) : Vec α :=
  (v.emplaceBackE (.ok x) none).2

/-- Vector::PushBack — forwards to EmplaceBack. -/
def Vec.pushBack (v : Vec α) (x : α) : Vec α :=
  v.emplaceBack x

/-- Vector::PopBack — destroys the last live element and decrements size_
when the vector is non-empty; otherwise does nothing. -/
def Vec.popBack (v : Vec α) : Vec α :=
  if 0 < v.size then ⟨v.elems.dropLast, v.cap⟩ else v

/-- The buffer produced by the growth path of Vector::Emplace at offset k:
the new element is constructed at slot k of the new block, the old
elements [0, k) are relocated to slots [0, k), and the old elements
[k, size) are relocated to slots [k+1, size+1). -/
def growEmplaceBuf [Inhabited α] (elems : List α) (k : Nat) (x : α) : List α :=
  (List.range (elems.length + 1)).map fun i =>
    if i < k then elems.getD i default
    else if i = k then x
    else elems.getD (i - 1) default

/-- std::move_backward(begin + k, begin + (n - 1), begin + n) applied to a
buffer: slots (k, n) receive the value one slot to their left, all other
slots keep their value. -/
def shiftTailRight [Inhabited α] (buf : List α) (k n : Nat) : List α :=
  (List.range buf.length).map fun i =>
    if k < i ∧ i < n then buf.getD (i - 1) default else buf.getD i default

/-- The in-place interior branch of Vector::Emplace at offset k < size
without growth, with the inserted value x already materialised: the
temporary T temp_val(args...) is built first, then the last element is
move-constructed into the fresh tail slot, the block [k, size-1) is
shifted one slot right by move_backward, and the temporary is
move-assigned into slot k. -/
def interiorInsert [Inhabited α] (elems : List α) (k : Nat) (x : α) : List α :=
  let temp := x
  let buf := elems ++ [elems.getD (elems.length - 1) default]
  let buf := shiftTailRight buf k elems.length
  buf.set k temp

/-- The same interior branch when the constructor argument is a reference
to the element at index j of this very vector: the temporary is built
first, before any shifting, so it reads slot j while the buffer is still
untouched. -/
def interiorInsertRef [Inhabited α] (elems : List α) (k j : Nat) : List α :=
  let temp := elems.getD j default
  let buf := elems ++ [elems.getD (elems.length - 1) default]
  let buf := shiftTailRight buf k elems.length
  buf.set k temp

/-- Vector::Emplace at offset k (precondition k ≤ size_) with the new
value x, when no element operation throws.  At capacity the split growth
path is taken; otherwise insertion at the logical end constructs directly
into the open tail slot and interior insertion uses the
temporary/shift/assign sequence. -/
def Vec.emplace [Inhabited α] (v : Vec α) (k : Nat) (x : α) : Vec α :=
  if v.size = v.cap then
    ⟨growEmplaceBuf v.elems k x, growCap v.size⟩
  else if k = v.size then
    ⟨v.elems ++ [x], v.cap⟩
  else
    ⟨interiorInsert v.elems k x, v.cap⟩

/-- Vector::Insert — forwards to Emplace. -/
def Vec.insert [Inhabited α] (v : Vec α) (k : Nat) (x : α) : Vec α :=
  v.emplace k x

/-- Vector::Emplace at offset k when the constructor argument is a
reference to this vector's own element at index j.  In each branch the
argument is read exactly where the corresponding construction happens in
the source: in the growth path the new element is constructed into the
new block while the old one is intact; in the end path it is constructed
into the open tail slot before anything moves; in the interior path the
temporary is built before the shift. -/
def Vec.emplaceRefIdx [Inhabited α] (v : Vec α) (k j : Nat) : Vec α :=
  if v.size = v.cap then
    ⟨growEmplaceBuf v.elems k (v.elems.getD j default), growCap v.size⟩
  else if k = v.size then
    ⟨v.elems ++ [v.elems.getD j default], v.cap⟩
  else
    ⟨interiorInsertRef v.elems k j, v.cap⟩

/-- The left shift std::move(begin + k + 1, end, begin + k) performed by
Vector::Erase: slots [k, n-1) receive the value one slot to their right,
all other slots keep their value. -/
def eraseShift [Inhabited α] (buf : List α) (k : Nat) : List α :=
  (List.range buf.length).map fun i =>
    if k ≤ i ∧ i + 1 < buf.length then buf.getD (i + 1) default
    else buf.getD i default

/-- Vector::Erase at offset k (precondition k < size_): shifts the tail
one slot left, then PopBack destroys the vacated final slot. -/
def Vec.erase [Inhabited α] (v : Vec α) (k : Nat) : Vec α :=
  Vec.popBack ⟨eraseShift v.elems k, v.cap⟩

/-- n sequential PushBack calls starting from a default-constructed
vector, pushing vals 0, vals 1, ... in order. -/
def Vec.pushN (vals : Nat → Int) : Nat → Vec Int
  | 0 => Vec.empty
  | n + 1 => (Vec.pushN vals n).pushBack (vals n)

/-! Basic characterizations of the operations, shared by the claim
theorems below. -/

theorem pushBack_elems (v : Vec α) (x : α) : (v.pushBack x).elems = v.elems ++ [x] := by
  unfold Vec.pushBack Vec.emplaceBack Vec.emplaceBackE
  split <;> rfl

theorem pushBack_cap (v : Vec α) (x : α) :
    (v.pushBack x).cap = if v.size = v.cap then growCap v.size else v.cap := by
  unfold Vec.pushBack Vec.emplaceBack Vec.emplaceBackE
  split <;> simp_all

theorem pushBack_size (v : Vec α) (x : α) : (v.pushBack x).size = v.size + 1 := by
  simp [Vec.size, pushBack_elems]

/-- Claim C1: if the element constructor invoked by EmplaceBack (or
PushBack, which forwards to it) throws, the call exits by that exception
and the vector state — size, capacity and all live element values — is
exactly what it was before the call, on the growth path as well as the
in-place path and for every relocation behaviour. -/
theorem emplaceBack_ctor_throw_strong {α : Type} (v : Vec α) (copyFailAt : Option Nat) :
    v.emplaceBackE (.error ()) copyFailAt = (.error (), v) := by
  unfold Vec.emplaceBackE
  split <;> rfl

/-- Claim C2 counterexample: move-assigning a two-element vector into a
one-element vector leaves the moved-from source with size 1, not 0,
because operator=(Vector&&) swaps the two objects. -/
theorem movedFrom_counterexample :
    ((Vec.moveAssign (⟨[5], 1⟩ : Vec Int) ⟨[7, 8], 2⟩).2).size ≠ 0 := by
  decide

/-- Claim C2 (amended): a vector moved from by move construction has
size 0 and capacity 0 and is reusable (a subsequent PushBack succeeds and
yields size 1); move assignment is a swap, so the moved-from source holds
the target's previous contents — size 0 only when the target was empty —
and it remains valid and reusable (a subsequent PushBack increments its
size). -/
theorem movedFrom_state {α : Type} (a b : Vec α) (x y : α) :
    (Vec.moveCtor b).2.size = 0 ∧
    (Vec.moveCtor b).2.cap = 0 ∧
    ((Vec.moveCtor b).2.pushBack x).elems = [x] ∧
    ((Vec.moveCtor b).2.pushBack x).size = 1 ∧
    (Vec.moveCtor b).1 = b ∧
    (Vec.moveAssign a b).1 = b ∧
    (Vec.moveAssign a b).2 = a ∧
    ((Vec.moveAssign a b).2.pushBack y).size = a.size + 1 := by
  refine ⟨rfl, rfl, ?_, ?_, rfl, rfl, rfl, ?_⟩
  · rw [show (Vec.moveCtor b).2 = Vec.empty from rfl, pushBack_elems]; rfl
  · rw [show (Vec.moveCtor b).2 = Vec.empty from rfl, pushBack_size]; rfl
  · rw [show (Vec.moveAssign a b).2 = a from rfl, pushBack_size]

/-- Claim C7: Reserve(new_capacity) is a no-op when new_capacity fits in
the current block; otherwise it leaves capacity exactly new_capacity and
preserves the size and the sequence of live element values. -/
theorem reserve_spec {α : Type} (v : Vec α) (n : Nat) :
    (n ≤ v.cap → v.reserve n = v) ∧
    (v.cap < n →
      (v.reserve n).cap = n ∧
      (v.reserve n).elems = v.elems ∧
      (v.reserve n).size = v.size) := by
  constructor
  · intro h
    simp [Vec.reserve, h]
  · intro h
    have h2 : ¬ (n ≤ v.cap) := by omega
    simp [Vec.reserve, h2, Vec.size]

theorem reserve_spec_witness :
    ((⟨[4, 5], 2⟩ : Vec Int).reserve 2 = ⟨[4, 5], 2⟩) ∧
    ((⟨[4, 5], 2⟩ : Vec Int).reserve 7).cap = 7 ∧
    ((⟨[4, 5], 2⟩ : Vec Int).reserve 7).elems = [4, 5] := by
  refine ⟨(reserve_spec (⟨[4, 5], 2⟩ : Vec Int) 2).1 (by decide), ?_, ?_⟩
  · exact ((reserve_spec (⟨[4, 5], 2⟩ : Vec Int) 7).2 (by decide)).1
  · exact ((reserve_spec (⟨[4, 5], 2⟩ : Vec Int) 7).2 (by decide)).2.1

/-- Claim C9: PopBack on a non-empty vector removes exactly the last live
element — the remaining prefix and the capacity are unchanged and size
drops by one — and PopBack on an empty vector is a silent no-op. -/
theorem popBack_spec {α : Type} (v : Vec α) :
    (0 < v.size →
      v.popBack.elems = v.elems.take (v.size - 1) ∧
      v.popBack.size = v.size - 1 ∧
      v.popBack.cap = v.cap) ∧
    (v.size = 0 → v.popBack = v) := by
  constructor
  · intro h
    unfold Vec.popBack
    rw [if_pos h]
    refine ⟨List.dropLast_eq_take v.elems, ?_, rfl⟩
    simp [Vec.size]
  · intro h
    unfold Vec.popBack
    rw [if_neg (by omega)]

theorem popBack_spec_witness :
    (⟨[7, 8], 2⟩ : Vec Int).popBack.elems = [7] ∧
    (⟨[], 0⟩ : Vec Int).popBack = ⟨[], 0⟩ := by
  constructor
  · have h := (popBack_spec (⟨[7, 8], 2⟩ : Vec Int)).1 (by decide)
    simpa using h.1
  · exact (popBack_spec (⟨[], 0⟩ : Vec Int)).2 (by decide)

/-- Claim C10: no shrinking operation releases or shrinks the storage —
Resize to a new size not above the current size, PopBack, and Erase all
leave the capacity exactly unchanged. -/
theorem shrink_preserves_cap {α : Type} [Inhabited α] (v : Vec α) (n k : Nat) :
    (n ≤ v.size → (v.resize n).cap = v.cap) ∧
    v.popBack.cap = v.cap ∧
    (v.erase k).cap = v.cap := by
  refine ⟨?_, ?_, ?_⟩
  · intro h
    unfold Vec.resize
    rw [if_neg (by omega)]
  · unfold Vec.popBack
    split <;> rfl
  · unfold Vec.erase Vec.popBack
    split <;> rfl

theorem growEmplaceBuf_length [Inhabited α] (elems : List α) (k : Nat) (x : α) :
    (growEmplaceBuf elems k x).length = elems.length + 1 := by
  simp [growEmplaceBuf]

theorem growEmplaceBuf_eq_insertIdx [Inhabited α] (elems : List α) (k : Nat) (x : α)
    (hk : k ≤ elems.length) :
    growEmplaceBuf elems k x = elems.insertIdx k x := by
  apply List.ext_getElem
  · rw [growEmplaceBuf_length, List.length_insertIdx _ _ hk]
  · intro i h1 h2
    have hi : i < elems.length + 1 := by rwa [growEmplaceBuf_length] at h1
    have hmap : (growEmplaceBuf elems k x)[i] =
        (if i < k then elems.getD i default
         else if i = k then x
         else elems.getD (i - 1) default) := by
      simp [growEmplaceBuf]
    rw [hmap]
    rcases Nat.lt_trichotomy i k with hik | hik | hik
    · rw [if_pos hik]
      have hilt : i < elems.length := by omega
      rw [List.getD_eq_getElem elems default hilt,
          List.getElem_insertIdx_of_lt elems x k i hik hilt]
    · subst hik
      rw [if_neg (by omega), if_pos rfl, List.getElem_insertIdx_self elems x i hk]
    · obtain ⟨j, rfl⟩ : ∃ j, i = k + j + 1 := ⟨i - k - 1, by omega⟩
      rw [if_neg (by omega), if_neg (by omega)]
      have hj : k + j < elems.length := by omega
      have hsub : k + j + 1 - 1 = k + j := by omega
      rw [hsub, List.getD_eq_getElem elems default hj,
          List.getElem_insertIdx_add_succ elems x k j hj]

theorem shiftTailRight_length [Inhabited α] (buf : List α) (k n : Nat) :
    (shiftTailRight buf k n).length = buf.length := by
  simp [shiftTailRight]

theorem interiorInsert_length [Inhabited α] (elems : List α) (k : Nat) (x : α) :
    (interiorInsert elems k x).length = elems.length + 1 := by
  simp [interiorInsert, shiftTailRight]

theorem getD_take (l : List α) (n m : Nat) (d : α) (hmn : m < n) :
    (l.take n).getD m d = l.getD m d := by
  by_cases hml : m < l.length
  · have h1 : m < (l.take n).length := by
      simp only [List.length_take]
      omega
    rw [List.getD_eq_getElem _ d h1, List.getD_eq_getElem _ d hml, List.getElem_take]
  · rw [List.getD_eq_default _ d (by simp only [List.length_take]; omega),
        List.getD_eq_default _ d (by omega)]

theorem getD_drop (l : List α) (n m : Nat) (d : α) (h : n + m < l.length) :
    (l.drop n).getD m d = l.getD (n + m) d := by
  rw [List.getD_eq_getElem _ d (by simp only [List.length_drop]; omega),
      List.getD_eq_getElem _ d h, List.getElem_drop]

theorem interiorInsert_getElem [Inhabited α] (elems : List α) (k : Nat) (x : α)
    (hk : k < elems.length) (i : Nat) (h1 : i < (interiorInsert elems k x).length) :
    (interiorInsert elems k x)[i] =
      (if i < k then elems.getD i default
       else if i = k then x
       else elems.getD (i - 1) default) := by
  have hi : i < elems.length + 1 := by rwa [interiorInsert_length] at h1
  by_cases hik : i = k
  · subst hik
    rw [if_neg (by omega), if_pos rfl]
    exact List.getElem_set_self h1
  · have hne : k ≠ i := fun h => hik h.symm
    have h1b : i < ((shiftTailRight (elems ++ [elems.getD (elems.length - 1) default]) k
        elems.length).set k x).length := h1
    have hstep : ((shiftTailRight (elems ++ [elems.getD (elems.length - 1) default]) k
        elems.length).set k x)[i] =
        (if k < i ∧ i < elems.length
         then (elems ++ [elems.getD (elems.length - 1) default]).getD (i - 1) default
         else (elems ++ [elems.getD (elems.length - 1) default]).getD i default) := by
      rw [List.getElem_set_ne hne]
      simp only [shiftTailRight, List.getElem_map, List.getElem_range]
    have hconv : (interiorInsert elems k x)[i] =
        ((shiftTailRight (elems ++ [elems.getD (elems.length - 1) default]) k
          elems.length).set k x)[i] := rfl
    rw [hconv, hstep]
    rcases Nat.lt_trichotomy i k with hlt | heq | hgt
    · rw [if_neg (by omega), List.getD_append _ _ _ _ (by omega), if_pos hlt]
    · exact absurd heq hik
    · by_cases hin : i < elems.length
      · rw [if_pos (And.intro hgt hin), List.getD_append _ _ _ _ (by omega),
            if_neg (by omega), if_neg hik]
      · have hieq : i = elems.length := by omega
        subst hieq
        rw [if_neg (by omega), List.getD_append_right _ _ _ _ (by omega)]
        have h0 : elems.length - elems.length = 0 := by omega
        rw [h0, if_neg (by omega), if_neg hik]
        rfl

theorem interiorInsert_eq_insertIdx [Inhabited α] (elems : List α) (k : Nat) (x : α)
    (hk : k < elems.length) :
    interiorInsert elems k x = elems.insertIdx k x := by
  apply List.ext_getElem
  · rw [interiorInsert_length, List.length_insertIdx _ _ hk.le]
  · intro i h1 h2
    rw [interiorInsert_getElem elems k x hk i h1]
    rcases Nat.lt_trichotomy i k with hik | hik | hik
    · rw [if_pos hik]
      have hilt : i < elems.length := by omega
      rw [List.getD_eq_getElem elems default hilt,
          List.getElem_insertIdx_of_lt elems x k i hik hilt]
    · subst hik
      rw [if_neg (by omega), if_pos rfl, List.getElem_insertIdx_self elems x i hk.le]
    · obtain ⟨j, rfl⟩ : ∃ j, i = k + j + 1 := ⟨i - k - 1, by omega⟩
      rw [if_neg (by omega), if_neg (by omega)]
      have hi : k + j + 1 < elems.length + 1 := by
        have := h1
        rwa [interiorInsert_length] at this
      have hj : k + j < elems.length := by omega
      have hsub : k + j + 1 - 1 = k + j := by omega
      rw [hsub, List.getD_eq_getElem elems default hj,
          List.getElem_insertIdx_add_succ elems x k j hj]

theorem emplace_elems [Inhabited α] (v : Vec α) (k : Nat) (x : α) (hk : k ≤ v.size) :
    (v.emplace k x).elems = v.elems.insertIdx k x := by
  unfold Vec.emplace
  by_cases hcap : v.size = v.cap
  · rw [if_pos hcap]
    exact growEmplaceBuf_eq_insertIdx v.elems k x hk
  · rw [if_neg hcap]
    by_cases hend : k = v.size
    · rw [if_pos hend]
      show v.elems ++ [x] = v.elems.insertIdx k x
      rw [hend]
      show v.elems ++ [x] = v.elems.insertIdx v.elems.length x
      exact (List.insertIdx_length_self v.elems x).symm
    · rw [if_neg hend]
      show interiorInsert v.elems k x = v.elems.insertIdx k x
      exact interiorInsert_eq_insertIdx v.elems k x (by
        unfold Vec.size at hk hend
        omega)

theorem emplace_size [Inhabited α] (v : Vec α) (k : Nat) (x : α) (hk : k ≤ v.size) :
    (v.emplace k x).size = v.size + 1 := by
  unfold Vec.size
  rw [emplace_elems v k x hk, List.length_insertIdx _ _ hk]

theorem eraseShift_length [Inhabited α] (buf : List α) (k : Nat) :
    (eraseShift buf k).length = buf.length := by
  simp [eraseShift]

theorem erase_elems [Inhabited α] (v : Vec α) (k : Nat) (hk : k < v.size) :
    (v.erase k).elems = v.elems.eraseIdx k := by
  unfold Vec.erase Vec.popBack
  have hlen : (eraseShift v.elems k).length = v.elems.length := eraseShift_length v.elems k
  have hpos : 0 < (Vec.mk (eraseShift v.elems k) v.cap).size := by
    unfold Vec.size
    unfold Vec.size at hk
    simp only [hlen]
    omega
  rw [if_pos hpos]
  show (eraseShift v.elems k).dropLast = _
  rw [List.dropLast_eq_take, List.eraseIdx_eq_take_drop_succ]
  apply List.ext_getElem
  · unfold Vec.size at hk
    simp only [List.length_take, List.length_append, List.length_drop, hlen]
    omega
  · intro i h1 h2
    unfold Vec.size at hk
    have hi : i < v.elems.length - 1 := by
      simp only [List.length_take, hlen] at h1
      omega
    have hlhs : ((eraseShift v.elems k).take ((eraseShift v.elems k).length - 1))[i] =
        (if k ≤ i ∧ i + 1 < v.elems.length
         then v.elems.getD (i + 1) default
         else v.elems.getD i default) := by
      rw [List.getElem_take]
      simp only [eraseShift, List.getElem_map, List.getElem_range, hlen]
    rw [hlhs, ← List.getD_eq_getElem _ default h2]
    have hlen2 : (v.elems.take k).length = k := by
      simp only [List.length_take]
      omega
    by_cases hik : i < k
    · rw [if_neg (by omega), List.getD_append _ _ _ _ (by omega),
          getD_take _ _ _ _ hik]
    · rw [if_pos (And.intro (by omega) (by omega)),
          List.getD_append_right _ _ _ _ (by omega), hlen2,
          getD_drop _ _ _ _ (by omega)]
      have hidx : k + 1 + (i - k) = i + 1 := by omega
      rw [hidx]

theorem handleAssignmentE_none (lhs rhs : Vec α) :
    Vec.handleAssignmentE lhs rhs none = (.ok (), ⟨rhs.elems, lhs.cap⟩) := by
  unfold Vec.handleAssignmentE
  dsimp only
  rw [if_neg (by simp)]
  by_cases hsl : rhs.size < lhs.size
  · rw [if_pos hsl]
    have hmin : min lhs.size rhs.size = rhs.size := by omega
    rw [hmin]
    have h1 : rhs.elems.take rhs.size = rhs.elems := List.take_length rhs.elems
    rw [h1]
    have h2 : (rhs.elems ++ lhs.elems.drop rhs.size).take rhs.size = rhs.elems :=
      List.take_left' rfl
    rw [h2]
  · rw [if_neg hsl, if_neg (by simp)]
    have hmin : min lhs.size rhs.size = lhs.size := by omega
    rw [hmin]
    have h1 : lhs.elems.drop lhs.size = [] := List.drop_length lhs.elems
    rw [h1, List.append_nil, List.take_append_drop]

theorem handleAssignmentE_okOver (lhs rhs : Vec α) (i : Nat) (hi : rhs.size ≤ i) :
    Vec.handleAssignmentE lhs rhs (some i) = (.ok (), ⟨rhs.elems, lhs.cap⟩) := by
  unfold Vec.handleAssignmentE
  dsimp only
  rw [if_neg (by simp only [decide_eq_true_eq]; omega)]
  by_cases hsl : rhs.size < lhs.size
  · rw [if_pos hsl]
    have hmin : min lhs.size rhs.size = rhs.size := by omega
    rw [hmin]
    have h1 : rhs.elems.take rhs.size = rhs.elems := List.take_length rhs.elems
    rw [h1]
    have h2 : (rhs.elems ++ lhs.elems.drop rhs.size).take rhs.size = rhs.elems :=
      List.take_left' rfl
    rw [h2]
  · rw [if_neg hsl, if_neg (by simp only [decide_eq_true_eq]; omega)]
    have hmin : min lhs.size rhs.size = lhs.size := by omega
    rw [hmin]
    have h1 : lhs.elems.drop lhs.size = [] := List.drop_length lhs.elems
    rw [h1, List.append_nil, List.take_append_drop]

theorem handleAssignmentE_failPre (lhs rhs : Vec α) (i : Nat)
    (hi : i < min lhs.size rhs.size) :
    Vec.handleAssignmentE lhs rhs (some i) =
      (.error (), ⟨rhs.elems.take i ++ lhs.elems.drop i, lhs.cap⟩) := by
  unfold Vec.handleAssignmentE
  dsimp only
  rw [if_pos (by simp only [decide_eq_true_eq]; omega)]
  rfl

theorem handleAssignmentE_failTail (lhs rhs : Vec α) (i : Nat)
    (hge : min lhs.size rhs.size ≤ i) (hlt : i < rhs.size) :
    Vec.handleAssignmentE lhs rhs (some i) =
      (.error (), ⟨rhs.elems.take (min lhs.size rhs.size) ++
        lhs.elems.drop (min lhs.size rhs.size), lhs.cap⟩) := by
  unfold Vec.handleAssignmentE
  dsimp only
  rw [if_neg (by simp only [decide_eq_true_eq]; omega),
      if_neg (by omega),
      if_pos (by simp only [decide_eq_true_eq]; omega)]

theorem handleAssignmentE_state_inv (lhs rhs : Vec α) (failAt : Option Nat)
    (hinv : lhs.inv) (hcap : rhs.size ≤ lhs.cap) :
    (Vec.handleAssignmentE lhs rhs failAt).2.inv ∧
    (Vec.handleAssignmentE lhs rhs failAt).2.cap = lhs.cap := by
  rcases failAt with _ | i
  · rw [handleAssignmentE_none lhs rhs]
    exact ⟨hcap, rfl⟩
  · by_cases h1 : i < min lhs.size rhs.size
    · rw [handleAssignmentE_failPre lhs rhs i h1]
      unfold Vec.size at h1
      unfold Vec.inv Vec.size at hinv ⊢
      refine ⟨?_, rfl⟩
      simp only [List.length_append, List.length_take, List.length_drop]
      omega
    · by_cases h2 : i < rhs.size
      · rw [handleAssignmentE_failTail lhs rhs i (by omega) h2]
        unfold Vec.size at h1 h2
        unfold Vec.inv Vec.size at hinv ⊢
        refine ⟨?_, rfl⟩
        simp only [List.length_append, List.length_take, List.length_drop]
        omega
      · rw [handleAssignmentE_okOver lhs rhs i (by omega)]
        exact ⟨hcap, rfl⟩


/-- Claim C4: copy assignment picks its strategy by comparing the source
size with the target capacity.  When the source size exceeds the target
capacity it builds a full temporary copy and swaps, so a failing element
copy leaves the target exactly unchanged (strong guarantee); otherwise it
reuses the target storage — assigning over the shared prefix and then
copy-constructing or destroying the excess tail — and a mid-prefix
failure leaves a valid but partially overwritten target (basic
guarantee).  A successful assignment always makes the target's element
sequence and size equal to the source's. -/
theorem copyAssign_spec {α : Type} (lhs rhs : Vec α) (failAt : Option Nat) (i : Nat)
    (hinv : lhs.inv) :
    ((Vec.copyAssignE lhs rhs none).1 = .ok () ∧
     (Vec.copyAssignE lhs rhs none).2.elems = rhs.elems ∧
     (Vec.copyAssignE lhs rhs none).2.size = rhs.size) ∧
    (lhs.cap < rhs.size → i < rhs.size →
      Vec.copyAssignE lhs rhs (some i) = (.error (), lhs)) ∧
    (rhs.size ≤ lhs.cap →
      (Vec.copyAssignE lhs rhs failAt).2.inv ∧
      (Vec.copyAssignE lhs rhs failAt).2.cap = lhs.cap) ∧
    (i < min lhs.size rhs.size →
      (Vec.copyAssignE lhs rhs (some i)).2.elems =
        rhs.elems.take i ++ lhs.elems.drop i ∨ lhs.cap < rhs.size) := by
  refine ⟨?_, ?_, ?_, ?_⟩
  · unfold Vec.copyAssignE
    by_cases hgt : rhs.size > lhs.cap
    · rw [if_pos hgt]
      show ((match Vec.copyCtorE rhs none with
        | .error e => ((.error e : Except Unit Unit), lhs)
        | .ok rhsCopy => (.ok (), rhsCopy)).1 = _ ∧ _)
      unfold Vec.copyCtorE
      exact ⟨rfl, rfl, rfl⟩
    · rw [if_neg hgt, handleAssignmentE_none lhs rhs]
      exact ⟨rfl, rfl, rfl⟩
  · intro hgt hi
    unfold Vec.copyAssignE
    rw [if_pos (by omega)]
    unfold Vec.copyCtorE
    dsimp only
    rw [if_pos hi]
  · intro hle
    unfold Vec.copyAssignE
    rw [if_neg (by omega)]
    exact handleAssignmentE_state_inv lhs rhs failAt hinv hle
  · intro hi
    by_cases hgt : rhs.size > lhs.cap
    · exact Or.inr hgt
    · left
      unfold Vec.copyAssignE
      rw [if_neg hgt, handleAssignmentE_failPre lhs rhs i hi]

theorem copyAssign_spec_witness :
    ((Vec.copyAssignE (⟨[1, 2, 3], 4⟩ : Vec Int) ⟨[7, 8], 2⟩ none).2.elems = [7, 8] ∧
     Vec.copyAssignE (⟨[1], 1⟩ : Vec Int) ⟨[7, 8], 2⟩ (some 0) = (.error (), ⟨[1], 1⟩) ∧
     (Vec.copyAssignE (⟨[1, 2, 3], 4⟩ : Vec Int) ⟨[7, 8], 2⟩ (some 1)).2.inv ∧
     ((Vec.copyAssignE (⟨[1, 2, 3], 4⟩ : Vec Int) ⟨[7, 8], 2⟩ (some 1)).2.elems =
       [7, 2, 3] ∨ (4 : Nat) < 2)) := by
  have h1 := copyAssign_spec (⟨[1, 2, 3], 4⟩ : Vec Int) ⟨[7, 8], 2⟩ (some 1) 1 (by decide)
  have h2 := copyAssign_spec (⟨[1], 1⟩ : Vec Int) ⟨[7, 8], 2⟩ (some 0) 0 (by decide)
  refine ⟨h1.1.2.1, h2.2.1 (by decide) (by decide), (h1.2.2.1 (by decide)).1, ?_⟩
  have h4 := h1.2.2.2 (by decide)
  simpa [Vec.size] using h4

theorem emplaceBackE_state_inv (v : Vec α) (mk : Except Unit α) (cf : Option Nat)
    (h : v.inv) : (v.emplaceBackE mk cf).2.inv := by
  have h' : v.elems.length ≤ v.cap := h
  unfold Vec.emplaceBackE
  by_cases hcap : v.size = v.cap
  · rw [if_pos hcap]
    have hc : v.elems.length = v.cap := hcap
    rcases mk with e | x
    · exact h
    · rcases cf with _ | i
      · show (v.elems ++ [x]).length ≤ growCap v.size
        unfold growCap Vec.size
        simp only [List.length_append, List.length_cons, List.length_nil]
        split <;> omega
      · dsimp only
        by_cases hlt : i < v.size
        · rw [if_pos hlt]
          exact h
        · rw [if_neg hlt]
          show (v.elems ++ [x]).length ≤ growCap v.size
          unfold growCap Vec.size
          simp only [List.length_append, List.length_cons, List.length_nil]
          split <;> omega
  · rw [if_neg hcap]
    have hc : v.elems.length ≠ v.cap := hcap
    rcases mk with e | x
    · exact h
    · show (v.elems ++ [x]).length ≤ v.cap
      simp only [List.length_append, List.length_cons, List.length_nil]
      omega

theorem pushBack_inv (v : Vec α) (x : α) (h : v.inv) : (v.pushBack x).inv :=
  emplaceBackE_state_inv v (.ok x) none h

theorem reserve_inv (v : Vec α) (n : Nat) (h : v.inv) : (v.reserve n).inv := by
  have h' : v.elems.length ≤ v.cap := h
  unfold Vec.reserve
  split
  · exact h
  · show v.elems.length ≤ n
    omega

theorem resize_inv [Inhabited α] (v : Vec α) (n : Nat) (h : v.inv) : (v.resize n).inv := by
  have h' : v.elems.length ≤ v.cap := h
  unfold Vec.resize
  dsimp only
  by_cases hg : n > v.size
  · rw [if_pos hg]
    have hg' : n > v.elems.length := hg
    show ((v.reserve n).elems ++ List.replicate (n - v.size) default).length ≤ (v.reserve n).cap
    unfold Vec.reserve Vec.size
    by_cases hr : n ≤ v.cap
    · rw [if_pos hr]
      simp only [List.length_append, List.length_replicate]
      omega
    · rw [if_neg hr]
      simp only [List.length_append, List.length_replicate]
      omega
  · rw [if_neg hg]
    show (v.elems.take n).length ≤ v.cap
    simp only [List.length_take]
    omega

theorem popBack_inv (v : Vec α) (h : v.inv) : v.popBack.inv := by
  have h' : v.elems.length ≤ v.cap := h
  unfold Vec.popBack
  split
  · show v.elems.dropLast.length ≤ v.cap
    simp only [List.length_dropLast]
    omega
  · exact h

theorem emplace_inv [Inhabited α] (v : Vec α) (k : Nat) (x : α) (h : v.inv) :
    (v.emplace k x).inv := by
  have h' : v.elems.length ≤ v.cap := h
  unfold Vec.emplace
  by_cases hcap : v.size = v.cap
  · rw [if_pos hcap]
    have hc : v.elems.length = v.cap := hcap
    show (growEmplaceBuf v.elems k x).length ≤ growCap v.size
    rw [growEmplaceBuf_length]
    unfold growCap Vec.size
    split <;> omega
  · rw [if_neg hcap]
    have hc : v.elems.length ≠ v.cap := hcap
    by_cases hend : k = v.size
    · rw [if_pos hend]
      show (v.elems ++ [x]).length ≤ v.cap
      simp only [List.length_append, List.length_cons, List.length_nil]
      omega
    · rw [if_neg hend]
      show (interiorInsert v.elems k x).length ≤ v.cap
      rw [interiorInsert_length]
      omega

theorem erase_inv [Inhabited α] (v : Vec α) (k : Nat) (h : v.inv) : (v.erase k).inv := by
  unfold Vec.erase
  apply popBack_inv
  show (eraseShift v.elems k).length ≤ v.cap
  rw [eraseShift_length]
  exact h

theorem copyAssignE_state_inv (lhs rhs : Vec α) (failAt : Option Nat) (h : lhs.inv) :
    (Vec.copyAssignE lhs rhs failAt).2.inv := by
  unfold Vec.copyAssignE
  by_cases hgt : rhs.size > lhs.cap
  · rw [if_pos hgt]
    rcases failAt with _ | i
    · exact Nat.le_refl _
    · unfold Vec.copyCtorE
      dsimp only
      by_cases hi : i < rhs.size
      · rw [if_pos hi]
        exact h
      · rw [if_neg hi]
        exact Nat.le_refl _
  · rw [if_neg hgt]
    exact (handleAssignmentE_state_inv lhs rhs failAt h (by omega)).1

/-- Claim C8: the invariant 0 ≤ size ≤ capacity holds for every vector
produced by any construction form and is preserved by every public
operation — copy and move assignment, Reserve, Resize, PushBack and
EmplaceBack, PopBack, Emplace and Insert, Erase, Swap — including the
states in which EmplaceBack or copy assignment leave the object when
they exit by an exception. -/
theorem inv_preserved {α : Type} [Inhabited α] (a b : Vec α) (n k : Nat) (x : α)
    (mk : Except Unit α) (fa : Option Nat) (ha : a.inv) (hb : b.inv) :
    (Vec.copyAssignE a b fa).2.inv ∧
    (a.emplaceBackE mk fa).2.inv ∧
    (Vec.empty : Vec α).inv ∧
    (Vec.ofSize n : Vec α).inv ∧
    (Vec.copyCtor a).inv ∧
    (Vec.moveCtor a).1.inv ∧
    (Vec.moveCtor a).2.inv ∧
    (Vec.moveAssign a b).1.inv ∧
    (Vec.moveAssign a b).2.inv ∧
    (a.reserve n).inv ∧
    (a.resize n).inv ∧
    (a.pushBack x).inv ∧
    a.popBack.inv ∧
    (a.emplace k x).inv ∧
    (a.insert k x).inv ∧
    (a.erase k).inv ∧
    (Vec.swap a b).1.inv ∧
    (Vec.swap a b).2.inv := by
  refine ⟨copyAssignE_state_inv a b fa ha,
    emplaceBackE_state_inv a mk fa ha,
    Nat.le_refl 0,
    ?_,
    Nat.le_refl _,
    ha,
    Nat.le_refl 0,
    hb,
    ha,
    reserve_inv a n ha,
    resize_inv a n ha,
    pushBack_inv a x ha,
    popBack_inv a ha,
    emplace_inv a k x ha,
    emplace_inv a k x ha,
    erase_inv a k ha,
    hb,
    ha⟩
  show (List.replicate n (default : α)).length ≤ n
  simp only [List.length_replicate]
  exact Nat.le_refl n

theorem inv_preserved_witness :
    (Vec.copyAssignE (⟨[1, 2], 4⟩ : Vec Int) ⟨[7, 8, 9], 3⟩ (some 1)).2.inv :=
  (inv_preserved (⟨[1, 2], 4⟩ : Vec Int) ⟨[7, 8, 9], 3⟩ 3 1 5 (.error ()) (some 1)
    (by decide) (by decide)).1

theorem pushN_size (vals : Nat → Int) (n : Nat) : (Vec.pushN vals n).size = n := by
  induction n with
  | zero => rfl
  | succ n ih =>
    show ((Vec.pushN vals n).pushBack (vals n)).size = n + 1
    rw [pushBack_size, ih]

theorem pushN_cap_char (vals : Nat → Int) :
    ∀ n, 0 < n →
      ∃ k, (Vec.pushN vals n).cap = 2 ^ k ∧ n ≤ 2 ^ k ∧ 2 ^ k < 2 * n := by
  intro n
  induction n with
  | zero => omega
  | succ n ih =>
    intro _
    by_cases hn : n = 0
    · subst hn
      refine ⟨0, ?_, by omega, by omega⟩
      rfl
    · obtain ⟨k, hcap, hle, hlt⟩ := ih (by omega)
      have hsz : (Vec.pushN vals n).size = n := pushN_size vals n
      have hstep : (Vec.pushN vals (n + 1)).cap =
          if (Vec.pushN vals n).size = (Vec.pushN vals n).cap
          then growCap (Vec.pushN vals n).size
          else (Vec.pushN vals n).cap := pushBack_cap _ _
      by_cases heq : (Vec.pushN vals n).size = (Vec.pushN vals n).cap
      · have hn2k : n = 2 ^ k := by rw [← hsz, heq, hcap]
        refine ⟨k + 1, ?_, by omega, by omega⟩
        rw [hstep, if_pos heq, hsz]
        unfold growCap
        rw [if_neg hn]
        rw [pow_succ]
        omega
      · refine ⟨k, ?_, ?_, by omega⟩
        · rw [hstep, if_neg heq]
          exact hcap
        · have : n ≠ 2 ^ k := by
            intro h
            exact heq (by rw [hsz, hcap, h])
          omega

/-- Claim C3: n sequential PushBack calls starting from a
default-constructed vector yield size n and capacity exactly
2 ^ ceil(log2 n) for every n > 0 — each growth step allocates
max(1, 2 * size) slots, so capacities visit the powers of two. -/
theorem pushN_growth (vals : Nat → Int) (n : Nat) (hn : 0 < n) :
    (Vec.pushN vals n).size = n ∧
    (Vec.pushN vals n).cap = 2 ^ Nat.clog 2 n := by
  obtain ⟨k, hcap, hle, hlt⟩ := pushN_cap_char vals n hn
  refine ⟨pushN_size vals n, ?_⟩
  have h1 : Nat.clog 2 n ≤ k := (Nat.le_pow_iff_clog_le (by omega)).1 hle
  have h2 : k ≤ Nat.clog 2 n := by
    by_contra hcon
    have hk1 : Nat.clog 2 n + 1 ≤ k := by omega
    have hmono : 2 ^ (Nat.clog 2 n + 1) ≤ 2 ^ k :=
      Nat.pow_le_pow_right (by omega) hk1
    have h3 : n ≤ 2 ^ Nat.clog 2 n := Nat.le_pow_clog (by omega) n
    have h4 : 2 ^ (Nat.clog 2 n + 1) = 2 * 2 ^ Nat.clog 2 n := by
      rw [pow_succ]
      omega
    omega
  have hkeq : k = Nat.clog 2 n := by omega
  rw [hcap, hkeq]

theorem pushN_growth_witness :
    (Vec.pushN (fun _ => 0) 5).size = 5 ∧
    (Vec.pushN (fun _ => 0) 5).cap = 2 ^ Nat.clog 2 5 :=
  pushN_growth (fun _ => 0) 5 (by decide)

/-- Claim C5: for any vector and any offset k ≤ size, inserting a value
at offset k with Emplace (hence Insert) and then erasing at offset k
restores the original visible contents — the element sequence and hence
the size. -/
theorem insert_erase_identity {α : Type} [Inhabited α] (v : Vec α) (k : Nat) (x : α)
    (hk : k ≤ v.size) :
    ((v.emplace k x).erase k).elems = v.elems ∧
    ((v.emplace k x).erase k).size = v.size := by
  have h1 : (v.emplace k x).elems = v.elems.insertIdx k x := emplace_elems v k x hk
  have hs : (v.emplace k x).size = v.size + 1 := emplace_size v k x hk
  have h2 : ((v.emplace k x).erase k).elems = (v.emplace k x).elems.eraseIdx k :=
    erase_elems (v.emplace k x) k (by omega)
  have h3 : ((v.emplace k x).erase k).elems = v.elems := by
    rw [h2, h1, List.eraseIdx_insertIdx]
  refine ⟨h3, ?_⟩
  unfold Vec.size
  rw [h3]

theorem insert_erase_identity_witness :
    (((⟨[1, 2, 3], 4⟩ : Vec Int).emplace 1 99).erase 1).elems = [1, 2, 3] ∧
    (((⟨[1, 2, 3], 4⟩ : Vec Int).emplace 1 99).erase 1).size = 3 :=
  insert_erase_identity (⟨[1, 2, 3], 4⟩ : Vec Int) 1 99 (by decide)

/-- Claim C6: inserting a reference to the vector's own element at
in-range index j, at any offset k ≤ size, produces exactly the sequence
obtained by inserting the value that element held before the call — the
argument is read while the buffer is still intact on every path (in the
interior path through the temporary built before any shifting), so the
result is never corrupted by the container's own element moves. -/
theorem self_referential_insert {α : Type} [Inhabited α] (v : Vec α) (k j : Nat)
    (hj : j < v.size) (hk : k ≤ v.size) :
    v.emplaceRefIdx k j = v.emplace k (v.elems.getD j default) ∧
    (v.emplaceRefIdx k j).elems = v.elems.insertIdx k (v.elems.getD j default) := by
  have hjlen : j < v.elems.length := hj
  have heq : v.emplaceRefIdx k j = v.emplace k (v.elems.getD j default) := rfl
  refine ⟨heq, ?_⟩
  rw [heq]
  exact emplace_elems v k _ hk

theorem self_referential_insert_witness :
    ((⟨[10, 20, 30], 4⟩ : Vec Int).emplaceRefIdx 3 0).elems = [10, 20, 30, 10] := by
  have h := self_referential_insert (⟨[10, 20, 30], 4⟩ : Vec Int) 3 0 (by decide) (by decide)
  rw [h.2]
  decide

theorem shrink_preserves_cap_witness :
    ((⟨[1, 2, 3], 4⟩ : Vec Int).resize 2).cap = 4 ∧
    (⟨[1, 2, 3], 4⟩ : Vec Int).popBack.cap = 4 ∧
    ((⟨[1, 2, 3], 4⟩ : Vec Int).erase 0).cap = 4 := by
  have h := shrink_preserves_cap (⟨[1, 2, 3], 4⟩ : Vec Int) 2 0
  exact ⟨h.1 (by decide), h.2.1, h.2.2⟩

end AdvVec
